import Mathlib

/-!
Verification of the slack-cc-proxy repository (src/index.js and the
unnamed variant src/unnamed/part_000).

Shallow embedding conventions:
* JavaScript strings are modelled as `List Char` (named `JsStr`) where the
  code manipulates characters (splitting, slicing, truncation), and as
  Lean `String` where the code only concatenates and compares them.
* The single-threaded event loop is modelled by explicit state passing:
  each asynchronous handler becomes a step function on an explicit state
  record, and an execution is a fold of the step function over a list of
  events.
* JavaScript promise semantics (a second resolve/reject is a no-op) are
  modelled by an `Option Outcome` field that is only written when `none`.

The file is organised as definitions first (the embedding of the data
model and operations), then the theorems about them.
-/

/-- JavaScript strings at character granularity. -/
abbrev JsStr := List Char

/-!
Section: `trim` (src/index.js line 95 / part_000 line 96).

`function trim(t, max) { max=max||3800; return t.length<=max?t:'...'+t.slice(-(max-3)); }`

The optional `max` parameter defaults to 3800 (`max||3800`; `undefined`
and `0` are both falsy); every call site in the repository uses the
default, so the embedding fixes the budget at 3800.  `t.slice(-(3800-3))`
keeps the last 3797 characters. -/
def trim (t : JsStr) : JsStr :=
  if t.length ≤ 3800 then t else "...".toList ++ t.drop (t.length - 3797)

/-!
Section: `liveUpdate` (src/index.js lines 116-122 / part_000 lines 148-154).

```
let lastText='', lastAt=0;
function liveUpdate(t) {
  t = trim(t); if (t === lastText) return; lastText = t;
  const now = Date.now(); if (now-lastAt < 600) return; lastAt = now;
  client.chat.update({ channel: chan, ts: posted.ts, text: t }).catch(...);
}
```

State: the two closure variables plus the list of texts actually
forwarded to `client.chat.update` (the outward consumer).  Each call
carries the value of `Date.now()` at that call. -/
structure LState where
  lastText : JsStr
  lastAt : Int
  sent : List JsStr
deriving DecidableEq

def LState.init : LState := ⟨[], 0, []⟩

def liveUpdate (s : LState) (t0 : JsStr) (now : Int) : LState :=
  let t := trim t0
  if t = s.lastText then s
  else
    let s' : LState := { s with lastText := t }
    if now - s'.lastAt < 600 then s'
    else { s' with lastAt := now, sent := s'.sent ++ [t] }

/-- A whole sequence of `liveUpdate` calls, each paired with its `Date.now()`. -/
def runLive (calls : List (JsStr × Int)) : LState :=
  calls.foldl (fun s c => liveUpdate s c.1 c.2) LState.init

/-- After a successful invocation the handler performs one final,
unthrottled `client.chat.update` with `trim(result) + meta`
(src/index.js line 144 / part_000 line 180).  `finalObserved` is the full
sequence of texts the outward consumer observes: the throttled live
updates followed by that final update. -/
def finalObserved (calls : List (JsStr × Int)) (result meta : JsStr) : List JsStr :=
  (runLive calls).sent ++ [trim result ++ meta]

/-!
Section: `askClaude` promise state machine
(src/index.js lines 52-84 / part_000 lines 48-90).

The events an in-flight full-path invocation can observe, in the order
the single-threaded event loop delivers them:

* `chunk t` — a decoded `assistant` event appended a text fragment:
  `acc += b.text` (the `onChunk` side effect is covered by the
  accumulator/throttler development);
* `success res` — a decoded `{type:'result', subtype:'success'}` event;
  `res` is `ev.result`, with `""` standing for an absent/empty field
  (both are falsy, so `ev.result || acc` yields `acc`);
* `error msg` — a decoded `{type:'result', is_error:true}` event,
  `msg = ev.result` with the same falsy convention;
* `close code` — the process `close` event with exit code `code`;
* `timeoutFire` — the 5-minute `setTimeout` callback running.

The promise can only settle once; later resolve/reject calls are no-ops.
`timerActive` tracks whether `clearTimeout(timer)` has run (the `close`
handler clears it; a fired timer is also spent). -/
inductive Outcome where
  | resolved (res : String)
  | rejected (msg : String)
deriving DecidableEq

inductive CEvent where
  | chunk (t : String)
  | success (res : String)
  | error (msg : String)
  | close (code : Int)
  | timeoutFire
deriving DecidableEq

structure PState where
  settled : Option Outcome
  timerActive : Bool
  acc : String
deriving DecidableEq

def PState.init : PState := ⟨none, true, ""⟩

/-- One event-loop step of the `askClaude` handlers.  Each branch is the
direct transcription of the corresponding handler in the source:
* `chunk`: `acc += b.text; onChunk(acc)`;
* `success`: `resolve({ result: ev.result || acc, ... })` — note the
  source does not clear the timer here;
* `error`: `reject(new Error(ev.result || 'Claude error'))`;
* `close`: `clearTimeout(timer); if (code !== 0 && !acc) reject(new Error('exit '+code))`;
* `timeoutFire`: `proc.kill('SIGKILL'); reject(new Error('Timeout 5min'))`,
  possible only while the timer is pending. -/
def step (s : PState) (e : CEvent) : PState :=
  match e with
  | .chunk t => { s with acc := s.acc ++ t }
  | .success res =>
      match s.settled with
      | some _ => s
      | none => { s with settled := some (.resolved (if res = "" then s.acc else res)) }
  | .error msg =>
      match s.settled with
      | some _ => s
      | none => { s with settled := some (.rejected (if msg = "" then "Claude error" else msg)) }
  | .close code =>
      let s' : PState := { s with timerActive := false }
      match s'.settled with
      | some _ => s'
      | none =>
          if code ≠ 0 ∧ s'.acc = "" then
            { s' with settled := some (.rejected ("exit " ++ toString code)) }
          else s'
  | .timeoutFire =>
      if s.timerActive then
        let s' : PState := { s with timerActive := false }
        match s'.settled with
        | some _ => s'
        | none => { s' with settled := some (.rejected "Timeout 5min") }
      else s

/-- One full-path invocation observing a given event sequence. -/
def run (evs : List CEvent) : PState := evs.foldl step PState.init

/-- The outcome dictated by the first qualifying event of a sequence,
threading the accumulated text and the timer status exactly as the
handlers do.  Qualifying means: any result event; a close event with
non-zero code and empty accumulated text; a timeout while the timer is
still pending. -/
def firstOutcome (acc : String) (timer : Bool) : List CEvent → Option Outcome
  | [] => none
  | e :: rest =>
    match e with
    | .chunk t => firstOutcome (acc ++ t) timer rest
    | .success res => some (.resolved (if res = "" then acc else res))
    | .error msg => some (.rejected (if msg = "" then "Claude error" else msg))
    | .close code =>
        if code ≠ 0 ∧ acc = "" then some (.rejected ("exit " ++ toString code))
        else firstOutcome acc false rest
    | .timeoutFire =>
        if timer then some (.rejected "Timeout 5min") else firstOutcome acc timer rest

/-!
Section: line framing in the stdout handler
(src/index.js lines 64-66 / part_000 lines 65-67).

```
buf += d.toString();
const lines = buf.split('\n'); buf = lines.pop();
```

`jsSplitNl` is JavaScript `s.split('\n')`: it always returns at least one
segment, the segments carry no `'\n'`, and a trailing newline produces a
trailing empty segment.  `processChunk` is one execution of the handler
body: the popped last segment becomes the new carry-over buffer and the
remaining segments are the complete lines handed to the decoder.
Chunks are modelled at character granularity (the decoded text of each
`data` event). -/
def jsSplitNl : JsStr → List JsStr
  | [] => [[]]
  | c :: cs =>
    if c = '\n' then [] :: jsSplitNl cs
    else
      match jsSplitNl cs with
      | [] => [[c]]
      | l :: ls => (c :: l) :: ls

def processChunk (buf chunk : JsStr) : List JsStr × JsStr :=
  let parts := jsSplitNl (buf ++ chunk)
  (parts.dropLast, parts.getLastD [])

/-- Feeding a sequence of chunks through the handler, starting from a
given carry-over buffer; returns all complete lines yielded, in order,
and the final carry-over buffer. -/
def feedChunks (buf : JsStr) : List JsStr → List JsStr × JsStr
  | [] => ([], buf)
  | c :: cs =>
    let p := processChunk buf c
    let q := feedChunks p.2 cs
    (p.1 ++ q.1, q.2)

/-- Helper recursion computing (complete lines, carry-over) directly. -/
def frame : JsStr → List JsStr × JsStr
  | [] => ([], [])
  | c :: cs =>
    let p := frame cs
    if c = '\n' then ([] :: p.1, p.2)
    else
      match p.1 with
      | [] => ([], c :: p.2)
      | l :: ls => ((c :: l) :: ls, p.2)

/-!
Section: response accumulator
(part_000 lines 72-74 and 38-39 / src/index.js lines 41 and 69-71).

Both execution paths fold text fragments the same way:
`acc += t; onChunk(acc)` (fast path) and
`acc += b.text; onChunk(acc)` (full path).  `accSnapshots acc frags` is
the sequence of snapshots passed to `onChunk` while folding `frags` into
an accumulator currently holding `acc`; an invocation starts from
`acc = ''`. -/
def accSnapshots (acc : JsStr) : List JsStr → List JsStr
  | [] => []
  | f :: fs => (acc ++ f) :: accSnapshots (acc ++ f) fs

/-!
Section: fast-path bounded history
(part_000 lines 162-167 / src/index.js lines 128-133).

```
history.push({ role: 'user', content: text }, { role: 'assistant', content: result });
if (history.length > 20) history.splice(0, 2);
```
-/
structure ChatMsg where
  role : String
  content : String
deriving DecidableEq

def pushTurn (history : List ChatMsg) (userText assistantText : String) : List ChatMsg :=
  let h := history ++ [⟨"user", userText⟩, ⟨"assistant", assistantText⟩]
  if h.length > 20 then h.drop 2 else h

/-!
Section: session router and reset
(part_000 lines 123-160 / src/index.js lines 98-115).

Per-conversation state: `histories` (a `Map` from key to fast-path
history) and `ccSessions` (a `Set` of keys with an active full-path
session), modelled as an association list and a key list.

`/^reset\b/i.test(text)` matches an ASCII case-insensitive "reset" at the
start of the text followed by a word boundary (`\w` is `[A-Za-z0-9_]`).
`/^quick:\s*/i` (part_000 only) matches a case-insensitive leading
"quick:"; `replace` drops it together with the following whitespace. -/
def isWordChar (c : Char) : Bool := c.isAlphanum || c = '_'

def resetMatch : JsStr → Bool
  | c1 :: c2 :: c3 :: c4 :: c5 :: rest =>
      c1.toLower = 'r' && c2.toLower = 'e' && c3.toLower = 's' &&
        c4.toLower = 'e' && c5.toLower = 't' &&
        (match rest with
         | [] => true
         | c :: _ => !(isWordChar c))
  | _ => false

def jsWhitespace (c : Char) : Bool :=
  c = ' ' || c = '\t' || c = '\n' || c = '\r' || c = '\x0b' || c = '\x0c'

def quickMatch : JsStr → Bool
  | c1 :: c2 :: c3 :: c4 :: c5 :: c6 :: _ =>
      c1.toLower = 'q' && c2.toLower = 'u' && c3.toLower = 'i' &&
        c4.toLower = 'c' && c5.toLower = 'k' && c6 = ':'
  | _ => false

def stripQuick (text : JsStr) : JsStr := (text.drop 6).dropWhile jsWhitespace

structure Store where
  histories : List (String × List ChatMsg)
  ccSessions : List String
deriving DecidableEq

inductive RouteAction where
  | didReset
  | runQuick (history : List ChatMsg)
  | runFull (isContinue : Bool)
deriving DecidableEq

/-- The effective message text: part_000 strips a recognized leading
`quick:` marker when the fast path is enabled (`USE_SDK`). -/
def effectiveText (useSDK : Bool) (rawText : JsStr) : JsStr :=
  if useSDK && quickMatch rawText then stripQuick rawText else rawText

/-- The routing part of `handleMessage`: a reset message deletes the
fast-path history and the full-path continuation marker for the key and
short-circuits; otherwise a quick message runs the fast path with
`histories.get(key) || []`, and any other message runs the full path with
`isContinue = ccSessions.has(key)`. -/
def route (useSDK : Bool) (st : Store) (key : String) (rawText : JsStr) :
    Store × RouteAction :=
  let isQuick := useSDK && quickMatch rawText
  let text := if isQuick then stripQuick rawText else rawText
  if resetMatch text then
    ({ histories := st.histories.filter (fun p => p.1 ≠ key),
       ccSessions := st.ccSessions.filter (fun k => k ≠ key) }, .didReset)
  else if isQuick then
    (st, .runQuick ((st.histories.lookup key).getD []))
  else
    (st, .runFull (st.ccSessions.contains key))

/-!
Section: worker environment and stdio
(part_000 lines 55-61 / src/index.js lines 58-62).

```
const env = Object.assign({}, process.env);
delete env.CLAUDECODE;
delete env.ANTHROPIC_API_KEY;
const proc = spawn(CLAUDE_BIN, args, { cwd: ..., env, stdio: ['ignore','pipe','pipe'] });
```

An environment is modelled extensionally as a partial map from variable
names to values; `childEnv` is the copied map after the two `delete`
statements.  `spawnStdio` is the spawn option's stdio triple
(stdin, stdout, stderr). -/
def childEnv (env : String → Option String) : String → Option String :=
  fun k => if k = "CLAUDECODE" ∨ k = "ANTHROPIC_API_KEY" then none else env k

def spawnStdio : List String := ["ignore", "pipe", "pipe"]

/-!
Theorems.  Helper lemmas come before the claim theorems that use them.
-/

lemma run_append (evs evs' : List CEvent) :
    run (evs ++ evs') = evs'.foldl step (run evs) := by
  simp [run, List.foldl_append]

/-- A settled promise stays settled with the same outcome: every later
resolve/reject call is a no-op. -/
lemma step_settled_some {s : PState} {o : Outcome} (e : CEvent)
    (h : s.settled = some o) : (step s e).settled = some o := by
  cases e <;> simp [step, h]
  split <;> simp [h]

lemma foldl_settled_some {s : PState} {o : Outcome} (evs : List CEvent)
    (h : s.settled = some o) : (evs.foldl step s).settled = some o := by
  induction evs generalizing s with
  | nil => simpa using h
  | cons e rest ih => exact ih (step_settled_some e h)

/-- While the promise is pending, running the remaining events settles it
exactly as the first qualifying event dictates. -/
lemma foldl_eq_firstOutcome :
    ∀ (evs : List CEvent) (s : PState), s.settled = none →
      (evs.foldl step s).settled = firstOutcome s.acc s.timerActive evs := by
  intro evs
  induction evs with
  | nil => intro s h; simpa [firstOutcome] using h
  | cons e rest ih =>
    intro s h
    cases e with
    | chunk t =>
        simpa [firstOutcome, step, h] using ih { s with acc := s.acc ++ t } (by simp [h])
    | success res =>
        simp only [List.foldl_cons, firstOutcome]
        have hstep : (step s (.success res)).settled
            = some (.resolved (if res = "" then s.acc else res)) := by simp [step, h]
        exact foldl_settled_some rest hstep
    | error msg =>
        simp only [List.foldl_cons, firstOutcome]
        have hstep : (step s (.error msg)).settled
            = some (.rejected (if msg = "" then "Claude error" else msg)) := by
          simp [step, h]
        exact foldl_settled_some rest hstep
    | close code =>
        by_cases hc : code ≠ 0 ∧ s.acc = ""
        · simp only [List.foldl_cons, firstOutcome, if_pos hc]
          have hstep : (step s (.close code)).settled
              = some (.rejected ("exit " ++ toString code)) := by
            simp [step, h, hc]
          exact foldl_settled_some rest hstep
        · have hstep : step s (.close code) = { s with timerActive := false } := by
            simp [step, h, hc]
          simp only [List.foldl_cons, firstOutcome, if_neg hc, hstep]
          exact ih { s with timerActive := false } (by simp [h])
    | timeoutFire =>
        by_cases ht : s.timerActive
        · simp only [List.foldl_cons, firstOutcome, if_pos ht]
          have hstep : (step s .timeoutFire).settled = some (.rejected "Timeout 5min") := by
            simp [step, h, ht]
          exact foldl_settled_some rest hstep
        · have hstep : step s .timeoutFire = s := by simp [step, ht]
          simp only [List.foldl_cons, firstOutcome, if_neg ht, hstep]
          exact ih s h

/-- A result-success event always leaves the promise settled. -/
lemma step_success_isSome (s : PState) (res : String) :
    ((step s (.success res)).settled).isSome := by
  cases h : s.settled <;> simp [step, h]

lemma foldl_settled_isSome {s : PState} (evs : List CEvent)
    (h : (s.settled).isSome) : ((evs.foldl step s).settled).isSome := by
  obtain ⟨o, ho⟩ := Option.isSome_iff_exists.mp h
  simp [foldl_settled_some evs ho]

/-- C1 counterexample: the worker exits with status 7 after having
emitted the assistant-text fragment "hi" and no result event.  The claim
says the invocation resolves as success with the accumulated text "hi";
in the source the `close` handler only rejects when the accumulated text
is empty and never resolves, so the promise is still pending (and the
timer has been cleared, so nothing will ever settle it). -/
theorem c1_counterexample :
    (run [CEvent.chunk "hi", CEvent.close 7]).settled = none := by decide

/-- C1 (amended): when the process closes while the invocation is still
pending, the invocation is rejected with the generic message
`"exit <code>"` iff the exit code is non-zero and the accumulated text is
empty; in every other case — in particular non-zero exit with non-empty
accumulated text — the `close` handler neither resolves nor rejects, so
the invocation stays pending. -/
theorem c1_close_soft_success (pre : List CEvent) (code : Int)
    (h : (run pre).settled = none) :
    (run (pre ++ [CEvent.close code])).settled =
      (if code ≠ 0 ∧ (run pre).acc = ""
       then some (Outcome.rejected ("exit " ++ toString code))
       else none) := by
  rw [run_append]
  simp only [List.foldl_cons, List.foldl_nil]
  by_cases hc : code ≠ 0 ∧ (run pre).acc = "" <;> simp [step, h, hc]

theorem c1_witness :
    (run [CEvent.chunk "hi"]).settled = none ∧
      (run ([CEvent.chunk "hi"] ++ [CEvent.close 7])).settled =
        (if (7 : Int) ≠ 0 ∧ (run [CEvent.chunk "hi"]).acc = ""
         then some (Outcome.rejected ("exit " ++ toString (7 : Int)))
         else none) :=
  ⟨by decide, c1_close_soft_success [CEvent.chunk "hi"] 7 (by decide)⟩

/-- C2 counterexample: the interleaving consisting of a single process
exit with status 0 and no result event.  The claim says every
interleaving of the qualifying events settles the invocation exactly
once; here the `close` handler clears the timer and, since the exit code
is zero, neither resolves nor rejects — the invocation settles zero
times. -/
theorem c2_counterexample :
    (run [CEvent.close 0]).settled = none := by decide

/-- C2 (amended): the invocation settles **at most** once — once settled,
no later result event, process exit or timer firing can change the
outcome — and whenever it settles, the outcome is exactly the one
dictated by the first qualifying event of the interleaving
(`firstOutcome`); an interleaving containing a result-success event
always settles it.  However, interleavings with no qualifying event
(process exit with status 0, or non-zero status with non-empty
accumulated text, and no result event) leave the invocation pending
forever, so "exactly once" fails in general. -/
theorem c2_resolution :
    (∀ (evs evs' : List CEvent) (o : Outcome),
        (run evs).settled = some o → (run (evs ++ evs')).settled = some o) ∧
    (∀ evs : List CEvent, (run evs).settled = firstOutcome "" true evs) ∧
    (∀ (evs evs' : List CEvent) (r : String),
        ((run (evs ++ CEvent.success r :: evs')).settled).isSome) := by
  refine ⟨?_, ?_, ?_⟩
  · intro evs evs' o h
    rw [run_append]
    exact foldl_settled_some evs' h
  · intro evs
    simpa [PState.init] using foldl_eq_firstOutcome evs PState.init rfl
  · intro evs evs' r
    rw [run_append]
    simp only [List.foldl_cons]
    exact foldl_settled_isSome evs' (step_success_isSome (run evs) r)

theorem c2_witness :
    (run [CEvent.success "ok"]).settled = some (Outcome.resolved "ok") ∧
      (run ([CEvent.success "ok"] ++ [CEvent.timeoutFire])).settled
        = some (Outcome.resolved "ok") :=
  ⟨by decide, c2_resolution.1 [CEvent.success "ok"] [CEvent.timeoutFire] _ (by decide)⟩

/-- C3 counterexample.  First part: after "a" is forwarded at t=1000 and
"b" arriving at t=1100 is suppressed by the 600ms gate (but still stored
in `lastText`), the snapshot "b" at t=2000 differs from the last
*forwarded* value ("a") and arrives 1000ms after the last forward, yet it
is suppressed — only "a" is ever sent.  Second part: in the same
situation, the snapshot "a" at t=2000 is textually identical to the last
*forwarded* value, yet it is forwarded again, because the code compares
against the last value *seen*, not the last value forwarded. -/
theorem c3_counterexample :
    (runLive [("a".toList, 1000), ("b".toList, 1100), ("b".toList, 2000)]).sent
        = ["a".toList] ∧
      (runLive [("a".toList, 1000), ("b".toList, 1100), ("a".toList, 2000)]).sent
        = ["a".toList, "a".toList] := by decide

/-- C3 (amended): a `liveUpdate(snapshot)` call forwards its (truncated)
snapshot iff the snapshot differs from the last snapshot *seen* — the
comparison reference `lastText` is updated even when the 600ms gate then
suppresses the call, so it is not in general the last *forwarded* value —
and at least 600ms have elapsed since the last forwarded value; each call
forwards at most one text; a call identical to the last seen value
changes nothing. -/
theorem c3_throttle (s : LState) (t : JsStr) (now : Int) :
    ((liveUpdate s t now).sent = s.sent ++ [trim t] ↔
        (trim t ≠ s.lastText ∧ 600 ≤ now - s.lastAt)) ∧
      ((liveUpdate s t now).sent = s.sent ∨
        (liveUpdate s t now).sent = s.sent ++ [trim t]) ∧
      (trim t ≠ s.lastText → (liveUpdate s t now).lastText = trim t) ∧
      (trim t = s.lastText → liveUpdate s t now = s) := by
  by_cases heq : trim t = s.lastText
  · simp [liveUpdate, heq]
  · by_cases htime : now - s.lastAt < 600
    · constructor
      · simp only [liveUpdate, if_neg heq, if_pos htime]
        constructor
        · intro habs
          exact absurd habs (by simp)
        · rintro ⟨-, hge⟩
          omega
      · simp [liveUpdate, heq, htime]
    · simp [liveUpdate, heq, htime]
      omega

theorem c3_witness :
    (trim "b".toList ≠ (⟨"a".toList, 1000, ["a".toList]⟩ : LState).lastText ∧
        600 ≤ (2000 : Int) - (⟨"a".toList, 1000, ["a".toList]⟩ : LState).lastAt) ∧
      (liveUpdate ⟨"a".toList, 1000, ["a".toList]⟩ "b".toList 2000).sent
        = (⟨"a".toList, 1000, ["a".toList]⟩ : LState).sent ++ [trim "b".toList] :=
  ⟨by decide, ((c3_throttle ⟨"a".toList, 1000, ["a".toList]⟩ "b".toList 2000).1).mpr
    (by decide)⟩

/-- C4 counterexample: an invocation that resolves with the result text
"hi" ends with the outward consumer observing `trim("hi") + meta` — the
trimmed result followed by the metadata suffix — not the bare resolved
result text "hi". -/
theorem c4_counterexample :
    (finalObserved [] "hi".toList
        "\n\n_cc 1.2s · reply to continue · reset_".toList).getLast?
      ≠ some "hi".toList := by decide

/-- C4 (amended): for every successful invocation the caller performs a
final unthrottled update, and the last value observed by the outward
consumer is always `trim(result) ++ meta` — the truncated resolved result
text followed by the metadata suffix — regardless of which earlier
throttled notifications were forwarded or suppressed and of their
timing. -/
theorem c4_final_flush (calls : List (JsStr × Int)) (result meta : JsStr) :
    (finalObserved calls result meta).getLast? = some (trim result ++ meta) := by
  simp [finalObserved]

lemma jsSplitNl_eq_frame : ∀ l : JsStr, jsSplitNl l = (frame l).1 ++ [(frame l).2] := by
  intro l
  induction l with
  | nil => simp [jsSplitNl, frame]
  | cons c cs ih =>
    by_cases hc : c = '\n'
    · simp [jsSplitNl, frame, hc, ih]
    · cases h1 : (frame cs).1 with
      | nil =>
          rw [h1] at ih
          simp [jsSplitNl, frame, hc, ih, h1]
      | cons l0 ls =>
          rw [h1] at ih
          simp [jsSplitNl, frame, hc, ih, h1]

lemma processChunk_eq_frame (buf chunk : JsStr) :
    processChunk buf chunk = frame (buf ++ chunk) := by
  simp [processChunk, jsSplitNl_eq_frame (buf ++ chunk), List.dropLast_concat,
    List.getLastD_concat]

lemma frame_no_newline : ∀ l : JsStr, '\n' ∉ l → frame l = ([], l) := by
  intro l
  induction l with
  | nil => simp [frame]
  | cons c cs ih =>
    intro h
    have hc : c ≠ '\n' := by rintro rfl; exact h (List.mem_cons_self _ _)
    have hcs : '\n' ∉ cs := fun hm => h (List.mem_cons_of_mem _ hm)
    simp [frame, hc, ih hcs]

lemma frame_snd_no_newline : ∀ l : JsStr, '\n' ∉ (frame l).2 := by
  intro l
  induction l with
  | nil => simp [frame]
  | cons c cs ih =>
    by_cases hc : c = '\n'
    · simpa [frame, hc] using ih
    · cases h1 : (frame cs).1 with
      | nil =>
          simp only [frame, if_neg hc, h1]
          intro hmem
          rcases List.mem_cons.mp hmem with h | h
          · exact hc h.symm
          · exact ih h
      | cons l0 ls => simpa [frame, hc, h1] using ih

lemma frame_append : ∀ (a b : JsStr),
    frame (a ++ b)
      = ((frame a).1 ++ (frame ((frame a).2 ++ b)).1, (frame ((frame a).2 ++ b)).2) := by
  intro a b
  induction a with
  | nil => simp [frame]
  | cons c a' ih =>
    by_cases hc : c = '\n'
    · simp [frame, hc, ih]
    · cases h1 : (frame a').1 with
      | nil =>
          cases h2 : (frame ((frame a').2 ++ b)).1 with
          | nil => simp [frame, hc, ih, h1, h2]
          | cons l0 ls => simp [frame, hc, ih, h1, h2]
      | cons l0 ls => simp [frame, hc, ih, h1]

lemma feedChunks_eq : ∀ (chunks : List JsStr) (buf : JsStr), '\n' ∉ buf →
    feedChunks buf chunks = processChunk buf chunks.flatten := by
  intro chunks
  induction chunks with
  | nil =>
      intro buf hbuf
      simp [feedChunks, processChunk_eq_frame, frame_no_newline buf hbuf]
  | cons c cs ih =>
      intro buf hbuf
      have hb2 : '\n' ∉ (processChunk buf c).2 := by
        rw [processChunk_eq_frame]
        exact frame_snd_no_newline (buf ++ c)
      calc feedChunks buf (c :: cs)
          = ((processChunk buf c).1 ++ (feedChunks (processChunk buf c).2 cs).1,
              (feedChunks (processChunk buf c).2 cs).2) := by simp [feedChunks]
        _ = ((frame (buf ++ c)).1
              ++ (frame ((frame (buf ++ c)).2 ++ cs.flatten)).1,
              (frame ((frame (buf ++ c)).2 ++ cs.flatten)).2) := by
              rw [ih _ hb2, processChunk_eq_frame, processChunk_eq_frame]
        _ = frame ((buf ++ c) ++ cs.flatten) := (frame_append (buf ++ c) cs.flatten).symm
        _ = processChunk buf (c :: cs).flatten := by
              rw [processChunk_eq_frame, List.flatten_cons, List.append_assoc]

/-- C5: framing idempotence.  Delivering a character stream to the
stdout handler split at arbitrary boundaries across any number of chunks
yields exactly the same sequence of complete newline-delimited lines, and
the same final carry-over buffer, as delivering the whole stream in a
single chunk; the content after the last newline is retained in the
carry-over buffer and never yielded. -/
theorem c5_framing (chunks : List JsStr) :
    feedChunks [] chunks = processChunk [] chunks.flatten :=
  feedChunks_eq chunks [] (by simp)

lemma accSnapshots_chain (R : JsStr → JsStr → Prop)
    (hR : ∀ (a b : JsStr), R a (a ++ b)) :
    ∀ (frags : List JsStr) (acc : JsStr), List.Chain' R (accSnapshots acc frags) := by
  intro frags
  induction frags with
  | nil => intro acc; simp [accSnapshots]
  | cons f fs ih =>
    intro acc
    rw [accSnapshots, List.chain'_cons']
    refine ⟨?_, ih (acc ++ f)⟩
    intro b hb
    cases fs with
    | nil => simp [accSnapshots] at hb
    | cons g gs =>
        simp only [accSnapshots, List.head?_cons, Option.mem_def, Option.some.injEq] at hb
        subst hb
        exact hR (acc ++ f) g

/-- C6: accumulator monotonicity.  In the sequence of snapshots passed to
`onChunk` by an in-flight invocation (either path), each snapshot extends
the previous one: the previous snapshot is an initial segment of the next
(there is a suffix `u` with `a ++ u = b`) and its length is no larger. -/
theorem c6_monotonic (frags : List JsStr) :
    List.Chain' (fun a b => a.length ≤ b.length ∧ ∃ u, a ++ u = b)
      (accSnapshots [] frags) := by
  refine accSnapshots_chain _ ?_ frags []
  intro a b
  exact ⟨by simp, b, rfl⟩

/-- C7: bounded history eviction.  Starting from a well-formed fast-mode
history (even length, at most 20 entries), appending one completed
(user, assistant) turn keeps the stored length at most 20; when the cap
would be exceeded (length already 20) exactly the two oldest entries —
the oldest complete turn pair — are evicted from the front, and the
remaining entries keep their order; below the cap the history is extended
unchanged. -/
theorem c7_eviction (history : List ChatMsg) (u a : String)
    (hlen : history.length ≤ 20) (heven : Even history.length) :
    (pushTurn history u a).length ≤ 20 ∧
      (history.length = 20 →
        pushTurn history u a = history.drop 2 ++ [⟨"user", u⟩, ⟨"assistant", a⟩]) ∧
      (history.length < 20 →
        pushTurn history u a = history ++ [⟨"user", u⟩, ⟨"assistant", a⟩]) := by
  have hlen2 : (history ++ [(⟨"user", u⟩ : ChatMsg), ⟨"assistant", a⟩]).length
      = history.length + 2 := by simp
  refine ⟨?_, ?_, ?_⟩
  · dsimp only [pushTurn]
    split
    · rw [List.length_drop, hlen2]
      omega
    · rw [hlen2]
      next h =>
        rw [hlen2] at h
        omega
  · intro h20
    have hgt : (history ++ [(⟨"user", u⟩ : ChatMsg), ⟨"assistant", a⟩]).length > 20 := by
      rw [hlen2]; omega
    simp only [pushTurn, if_pos hgt]
    rw [List.drop_append_of_le_length (by omega)]
  · intro hlt
    obtain ⟨k, hk⟩ := heven
    have hle : ¬ (history ++ [(⟨"user", u⟩ : ChatMsg), ⟨"assistant", a⟩]).length > 20 := by
      rw [hlen2]; omega
    simp only [pushTurn, if_neg hle]

theorem c7_witness :
    (List.replicate 20 (⟨"user", "x"⟩ : ChatMsg)).length ≤ 20 ∧
      Even (List.replicate 20 (⟨"user", "x"⟩ : ChatMsg)).length ∧
      (List.replicate 20 (⟨"user", "x"⟩ : ChatMsg)).length = 20 ∧
      pushTurn (List.replicate 20 ⟨"user", "x"⟩) "u" "a"
        = (List.replicate 20 (⟨"user", "x"⟩ : ChatMsg)).drop 2
            ++ [⟨"user", "u"⟩, ⟨"assistant", "a"⟩] := by
  have he : Even (List.replicate 20 (⟨"user", "x"⟩ : ChatMsg)).length := by
    rw [List.length_replicate]
    exact ⟨10, rfl⟩
  refine ⟨by simp, he, by simp, ?_⟩
  exact (c7_eviction (List.replicate 20 ⟨"user", "x"⟩) "u" "a" (by simp) he).2.1 (by simp)

lemma lookup_filter_ne {α : Type} (l : List (String × α)) (key : String) :
    (l.filter (fun p => p.1 ≠ key)).lookup key = none := by
  induction l with
  | nil => simp
  | cons p rest ih =>
    obtain ⟨k, v⟩ := p
    by_cases hp : k = key
    · simpa [List.filter_cons, hp] using ih
    · have hne : (key == k) = false := beq_eq_false_iff_ne.mpr (Ne.symm hp)
      simp [List.filter_cons, hp, List.lookup, hne, ih]
      exact fun a b _ hak hka => hak hka.symm

lemma contains_filter_ne (l : List String) (key : String) :
    (l.filter (fun k => k ≠ key)).contains key = false := by
  simp

/-- Every route decision is one of: reset, quick with the stored (or
empty) history, or full with the continuation flag read from
`ccSessions`. -/
lemma route_action (useSDK : Bool) (st : Store) (key : String) (rawText : JsStr) :
    (route useSDK st key rawText).2 = RouteAction.didReset ∨
      (route useSDK st key rawText).2
        = RouteAction.runQuick ((st.histories.lookup key).getD []) ∨
      (route useSDK st key rawText).2
        = RouteAction.runFull (st.ccSessions.contains key) := by
  simp only [route]
  split <;> split <;>
    first
      | exact Or.inl rfl
      | exact Or.inr (Or.inl rfl)
      | exact Or.inr (Or.inr rfl)

/-- C8: reset isolates state.  A message whose effective text matches
`^reset\b` (case-insensitively) makes the router delete both the
fast-mode history entry and the full-mode continuation marker for the
conversation key and short-circuit without running any invocation; the
next message for that key is then invoked without the continuation flag
if it takes the full path, and sees an empty fast-mode history if it
takes the quick path. -/
theorem c8_reset (useSDK : Bool) (st : Store) (key : String) (text next : JsStr)
    (h : resetMatch (effectiveText useSDK text) = true) :
    (route useSDK st key text).2 = RouteAction.didReset ∧
      ((route useSDK st key text).1).histories.lookup key = none ∧
      ((route useSDK st key text).1).ccSessions.contains key = false ∧
      (∀ b, (route useSDK (route useSDK st key text).1 key next).2
          = RouteAction.runFull b → b = false) ∧
      (∀ hist, (route useSDK (route useSDK st key text).1 key next).2
          = RouteAction.runQuick hist → hist = []) := by
  simp only [effectiveText] at h
  have hr : route useSDK st key text
      = ({ histories := st.histories.filter (fun p => p.1 ≠ key),
           ccSessions := st.ccSessions.filter (fun k => k ≠ key) }, .didReset) := by
    simp only [route]
    rw [if_pos h]
  refine ⟨by rw [hr], ?_, ?_, ?_, ?_⟩
  · rw [hr]
    exact lookup_filter_ne st.histories key
  · rw [hr]
    exact contains_filter_ne st.ccSessions key
  · intro b hb
    rw [hr] at hb
    rcases route_action useSDK
        ⟨st.histories.filter (fun p => p.1 ≠ key),
          st.ccSessions.filter (fun k => k ≠ key)⟩ key next with ha | ha | ha
    · rw [ha] at hb
      simp at hb
    · rw [ha] at hb
      simp at hb
    · rw [ha] at hb
      simp only [RouteAction.runFull.injEq] at hb
      rw [← hb]
      exact contains_filter_ne st.ccSessions key
  · intro hist hb
    rw [hr] at hb
    rcases route_action useSDK
        ⟨st.histories.filter (fun p => p.1 ≠ key),
          st.ccSessions.filter (fun k => k ≠ key)⟩ key next with ha | ha | ha
    · rw [ha] at hb
      simp at hb
    · rw [ha] at hb
      simp only [RouteAction.runQuick.injEq] at hb
      rw [← hb, lookup_filter_ne st.histories key]
      rfl
    · rw [ha] at hb
      simp at hb

theorem c8_witness :
    resetMatch (effectiveText false "Reset please".toList) = true ∧
      (route false ⟨[("k", [⟨"user", "hi"⟩])], ["k"]⟩ "k" "Reset please".toList).2
        = RouteAction.didReset :=
  ⟨by decide,
    (c8_reset false ⟨[("k", [⟨"user", "hi"⟩])], ["k"]⟩ "k" "Reset please".toList
      "hello".toList (by decide)).1⟩

/-- C9: credential stripping noninterference.  The environment handed to
the spawned worker never contains `ANTHROPIC_API_KEY` or `CLAUDECODE`,
the worker's stdin slot is `'ignore'` (not the host's stdin), and any two
host environments that agree outside those two variables produce
identical worker environments. -/
theorem c9_env (e1 e2 : String → Option String)
    (h : ∀ k, k ≠ "ANTHROPIC_API_KEY" → k ≠ "CLAUDECODE" → e1 k = e2 k) :
    childEnv e1 "ANTHROPIC_API_KEY" = none ∧
      childEnv e1 "CLAUDECODE" = none ∧
      spawnStdio.head? = some "ignore" ∧
      childEnv e1 = childEnv e2 := by
  refine ⟨by simp [childEnv], by simp [childEnv], rfl, ?_⟩
  funext k
  by_cases hk : k = "CLAUDECODE" ∨ k = "ANTHROPIC_API_KEY"
  · simp [childEnv, hk]
  · simp only [childEnv, if_neg hk]
    push_neg at hk
    exact h k hk.2 hk.1

theorem c9_witness :
    (∀ k : String, k ≠ "ANTHROPIC_API_KEY" → k ≠ "CLAUDECODE" →
        (fun k => if k = "ANTHROPIC_API_KEY" then some "sk-old"
          else if k = "PATH" then some "/bin" else (none : Option String)) k
          = (fun k => if k = "PATH" then some "/bin" else (none : Option String)) k) ∧
      childEnv (fun k => if k = "ANTHROPIC_API_KEY" then some "sk-old"
          else if k = "PATH" then some "/bin" else (none : Option String))
        = childEnv (fun k => if k = "PATH" then some "/bin" else (none : Option String)) := by
  have h : ∀ k : String, k ≠ "ANTHROPIC_API_KEY" → k ≠ "CLAUDECODE" →
      (fun k => if k = "ANTHROPIC_API_KEY" then some "sk-old"
        else if k = "PATH" then some "/bin" else (none : Option String)) k
        = (fun k => if k = "PATH" then some "/bin" else (none : Option String)) k := by
    intro k h1 h2
    simp [h1]
  exact ⟨h, (c9_env _ _ h).2.2.2⟩

lemma trim_length_le (t : JsStr) : (trim t).length ≤ 3800 := by
  by_cases h : t.length ≤ 3800
  · simp [trim, h]
  · have h3 : ("...".toList : JsStr).length = 3 := rfl
    simp [trim, h, List.length_append, List.length_drop, h3]
    omega

lemma liveUpdate_sent_cases (s : LState) (t : JsStr) (now : Int) :
    (liveUpdate s t now).sent = s.sent ∨
      (liveUpdate s t now).sent = s.sent ++ [trim t] := by
  by_cases heq : trim t = s.lastText
  · exact Or.inl (by simp [liveUpdate, heq])
  · by_cases htime : now - s.lastAt < 600
    · exact Or.inl (by simp [liveUpdate, heq, htime])
    · exact Or.inr (by simp [liveUpdate, heq, htime])

lemma runLive_sent_le :
    ∀ (calls : List (JsStr × Int)) (s : LState),
      (∀ o ∈ s.sent, o.length ≤ 3800) →
      ∀ o ∈ (calls.foldl (fun s c => liveUpdate s c.1 c.2) s).sent, o.length ≤ 3800 := by
  intro calls
  induction calls with
  | nil => intro s hs; simpa using hs
  | cons c cs ih =>
    intro s hs
    simp only [List.foldl_cons]
    refine ih (liveUpdate s c.1 c.2) ?_
    intro o ho
    rcases liveUpdate_sent_cases s c.1 c.2 with hc | hc
    · exact hs o (hc ▸ ho)
    · rw [hc] at ho
      rcases List.mem_append.mp ho with hm | hm
      · exact hs o hm
      · rw [List.mem_singleton.mp hm]
        exact trim_length_le c.1

/-- C10: display length bound.  `trim` with the default budget returns
inputs of length at most 3800 unchanged; longer inputs become exactly
3800 characters, the marker "..." followed by the last 3797 characters of
the input; consequently every text a throttled `liveUpdate` call forwards
to the chat surface has length at most 3800. -/
theorem c10_trim :
    (∀ t : JsStr, t.length ≤ 3800 → trim t = t) ∧
      (∀ t : JsStr, 3800 < t.length →
        (trim t).length = 3800 ∧
          trim t = "...".toList ++ t.drop (t.length - 3797)) ∧
      (∀ calls : List (JsStr × Int), ∀ o ∈ (runLive calls).sent, o.length ≤ 3800) := by
  refine ⟨?_, ?_, ?_⟩
  · intro t h
    simp [trim, h]
  · intro t h
    have hn : ¬ t.length ≤ 3800 := by omega
    have h3 : ("...".toList : JsStr).length = 3 := rfl
    constructor
    · simp [trim, hn, List.length_append, List.length_drop, h3]
      omega
    · simp [trim, hn]
  · intro calls o ho
    exact runLive_sent_le calls LState.init (by simp [LState.init]) o ho

theorem c10_witness :
    3800 < (List.replicate 3801 'a').length ∧
      (trim (List.replicate 3801 'a')).length = 3800 := by
  have h : 3800 < (List.replicate 3801 'a').length := by
    rw [List.length_replicate]
    omega
  exact ⟨h, (c10_trim.2.1 (List.replicate 3801 'a') h).1⟩
